import Mathlib

/-!
# Verification of the `quantum-algorithms` demo scripts

Shallow embedding of the classical (locally executed) parts of the
repository's Python scripts, together with a gate-list model of the
quantum circuits the scripts build, and proofs about both.

Conventions used throughout:
* Python `int` is modelled by `ℤ` (by `ℕ` where the Python value is
  manifestly a nonnegative index or counter).
* Python `%` and `//` always appear in the scripts with a nonnegative
  right operand; for such operands they agree with `Int.emod` and
  `Int.ediv`, which are what `%` and `/` denote on `ℤ` here.
* Python `float` arithmetic that the scripts use only on exactly
  representable dyadic rationals (for example `measurement / 2 ** n_count`)
  is modelled by exact `ℚ` arithmetic.
* Qiskit circuits are modelled as lists of gates; `QuantumCircuit.inverse()`
  reverses the gate list and inverts each gate, which is what
  `circuitInverse` below does.
-/

namespace QuantumAlgorithms

/-! ## Classical helpers of `src/shor-algorithm/main.py` -/

/-- `gcd(a, b)` from `src/shor-algorithm/main.py` lines 14-18:
`while b: a, b = b, a % b; return a`.  The scripts only ever call it with a
nonnegative second argument, where Python `%` agrees with `Int.emod`. -/
def pygcd (a b : ℤ) : ℤ :=
  if hb0 : b = 0 then a
  else pygcd b (a % b)
termination_by b.natAbs
decreasing_by
  have hb : b ≠ 0 := hb0
  have h0 : 0 ≤ a % b := Int.emod_nonneg a hb
  have h1 : a % b < |b| := Int.emod_lt a hb
  cases' abs_cases b with hc hc <;> omega

/-- The loop of `modular_exponentiation` from `src/shor-algorithm/main.py`
lines 26-35: `while power > 0: if power & 1: result = (result * a) % N;
power >>= 1; a = (a * a) % N`. -/
def modExpLoop (power : ℕ) (a result N : ℤ) : ℤ :=
  if power = 0 then result
  else
    modExpLoop (power / 2) ((a * a) % N)
      (if power % 2 = 1 then (result * a) % N else result) N
termination_by power
decreasing_by exact Nat.div_lt_self (Nat.pos_of_ne_zero (by assumption)) one_lt_two

/-- `modular_exponentiation(a, power, N)` from `src/shor-algorithm/main.py`
lines 26-35.  The preamble is `result = 1; a = a % N`. -/
def modular_exponentiation (a : ℤ) (power : ℕ) (N : ℤ) : ℤ :=
  modExpLoop power (a % N) 1 N

/-- The continued-fraction loop of `Fraction.limit_denominator` from CPython's
`fractions.py`, which `analyze_shor_measurement` calls (line 188 of
`src/shor-algorithm/main.py`):
`p0, q0, p1, q1 = 0, 1, 1, 0; n, d = num, den;`
`while True: a = n//d; q2 = q0+a*q1; if q2 > max_denominator: break;`
`p0, q0, p1, q1 = p1, q1, p0+a*p1, q2; n, d = d, n-a*d`.
Returns the final `(n, d, p0, q0, p1, q1)`.  (The guard `0 < d` is never hit
by `break`-free exit in Python; it makes the recursion well-founded.) -/
def cfLoop (maxDen n d p0 q0 p1 q1 : ℤ) : ℤ × ℤ × ℤ × ℤ × ℤ × ℤ :=
  if hd : 0 < d then
    if q0 + n / d * q1 > maxDen then (n, d, p0, q0, p1, q1)
    else
      cfLoop maxDen d (n - n / d * d) p1 q1
        (p0 + n / d * p1) (q0 + n / d * q1)
  else (n, d, p0, q0, p1, q1)
termination_by d.natAbs
decreasing_by
  have hrw : n - n / d * d = n % d := by
    rw [Int.emod_def]; ring
  rw [hrw]
  have h0 : 0 ≤ n % d := Int.emod_nonneg n (by omega)
  have h1 : n % d < d := Int.emod_lt_of_pos n hd
  omega

/-- `Fraction.limit_denominator(max_denominator)` from CPython's
`fractions.py`, on exact rationals.  After the loop,
`k = (max_denominator-q0)//q1`, and the closer of the bounds
`p1/q1` and `(p0+k*p1)/(q0+k*q1)` is returned (the comparison
`2*d*(q0+k*q1) <= den` is CPython's exact form of that tie-break). -/
def limit_denominator (q : ℚ) (maxDen : ℤ) : ℚ :=
  if (q.den : ℤ) ≤ maxDen then q
  else
    match cfLoop maxDen q.num (q.den : ℤ) 0 1 1 0 with
    | (_, d, p0, q0, p1, q1) =>
      let k := (maxDen - q0) / q1
      if 2 * d * (q0 + k * q1) ≤ (q.den : ℤ) then
        (p1 : ℚ) / (q1 : ℚ)
      else
        ((p0 + k * p1 : ℤ) : ℚ) / ((q0 + k * q1 : ℤ) : ℚ)

/-- `analyze_shor_measurement(measurement, n_count, N, a)` from
`src/shor-algorithm/main.py` lines 168-203.  The Python float
`measurement / (2 ** n_count)` is a dyadic rational, modelled exactly in `ℚ`.
Returns the pair `(period_candidate, factors)`; `None` becomes `none`. -/
def analyze_shor_measurement (measurement n_count : ℕ) (N a : ℤ) :
    Option ℕ × Option (List ℤ) :=
  let phase : ℚ := (measurement : ℚ) / 2 ^ n_count
  if phase = 0 then (none, none)
  else
    let frac := limit_denominator phase N
    let r := frac.den
    if r = 0 ∨ r % 2 ≠ 0 then (some r, none)
    else
      let x := modular_exponentiation a (r / 2) N
      let guess1 := pygcd (x - 1) N
      let guess2 := pygcd (x + 1) N
      let factors := List.filter (fun g => decide (1 < g ∧ g < N)) [guess1, guess2]
      (some r, if factors = [] then none else some factors)

/-! ## `calculate_qber` of `src/bb84/bb84-with-eavesdropping/main.py` -/

/-- `calculate_qber(alice_key, bob_key)` from
`src/bb84/bb84-with-eavesdropping/main.py` lines 84-89:
`if not alice_key: return 0.0;`
`errors = sum(a != b for a, b in zip(alice_key, bob_key));`
`return errors / len(alice_key)`.  The keys are lists of Python ints
(bits); the float quotient of the two small ints is modelled in `ℚ`. -/
def calculate_qber (alice_key bob_key : List ℕ) : ℚ :=
  if alice_key = [] then 0
  else
    (((alice_key.zip bob_key).countP fun p => decide (p.1 ≠ p.2) : ℕ) : ℚ) /
      (alice_key.length : ℚ)

/-! ## Unfolding lemmas for the loop-shaped definitions -/

theorem pygcd_zero (a : ℤ) : pygcd a 0 = a := by
  rw [pygcd]; simp

theorem pygcd_step (a b : ℤ) (hb : b ≠ 0) : pygcd a b = pygcd b (a % b) := by
  rw [pygcd]; simp [hb]

theorem modExpLoop_zero (a r N : ℤ) : modExpLoop 0 a r N = r := by
  rw [modExpLoop]; simp

theorem modExpLoop_step (p : ℕ) (a r N : ℤ) (hp : p ≠ 0) :
    modExpLoop p a r N =
      modExpLoop (p / 2) ((a * a) % N) (if p % 2 = 1 then (r * a) % N else r) N := by
  rw [modExpLoop]; simp [hp]

/-! ## Properties of `pygcd` -/

/-- The value of the script's Euclidean loop divides both arguments. -/
theorem pygcd_dvd (a b : ℤ) : pygcd a b ∣ b ∧ pygcd a b ∣ a := by
  by_cases hb : b = 0
  · subst hb; rw [pygcd_zero]; exact ⟨dvd_zero a, dvd_refl a⟩
  · rw [pygcd_step a b hb]
    obtain ⟨h1, h2⟩ := pygcd_dvd b (a % b)
    refine ⟨h2, ?_⟩
    have hadd := dvd_add (h2.mul_right (a / b)) h1
    rwa [Int.ediv_add_emod a b] at hadd
termination_by b.natAbs
decreasing_by
  have h0 : 0 ≤ a % b := Int.emod_nonneg a hb
  have h1 : a % b < |b| := Int.emod_lt a hb
  cases' abs_cases b with hc hc <;> omega

/-- Any common divisor of the arguments divides the value of the script's
Euclidean loop. -/
theorem pygcd_greatest (a b c : ℤ) (hca : c ∣ a) (hcb : c ∣ b) : c ∣ pygcd a b := by
  by_cases hb : b = 0
  · subst hb; rw [pygcd_zero]; exact hca
  · rw [pygcd_step a b hb]
    refine pygcd_greatest b (a % b) c hcb ?_
    have ha : a % b = a - b * (a / b) := Int.emod_def a b
    rw [ha]
    exact dvd_sub hca (hcb.mul_right _)
termination_by b.natAbs
decreasing_by
  have h0 : 0 ≤ a % b := Int.emod_nonneg a hb
  have h1 : a % b < |b| := Int.emod_lt a hb
  cases' abs_cases b with hc hc <;> omega

/-- On nonnegative arguments the script's Euclidean loop is nonnegative. -/
theorem pygcd_nonneg (a b : ℤ) (ha : 0 ≤ a) (hb : 0 ≤ b) : 0 ≤ pygcd a b := by
  by_cases hb0 : b = 0
  · subst hb0; rw [pygcd_zero]; exact ha
  · rw [pygcd_step a b hb0]
    exact pygcd_nonneg b (a % b) hb (Int.emod_nonneg a hb0)
termination_by b.natAbs
decreasing_by
  have h0 : 0 ≤ a % b := Int.emod_nonneg a hb0
  have h1 : a % b < |b| := Int.emod_lt a hb0
  cases' abs_cases b with hc hc <;> omega

/-! ## Correctness of `modular_exponentiation` -/

/-- Power mod for integers, used to relate the script's reduced base to the
mathematical value. -/
theorem int_pow_emod (a : ℤ) (k : ℕ) (n : ℤ) : a ^ k % n = (a % n) ^ k % n := by
  induction k with
  | zero => simp
  | succ k ih =>
    rw [pow_succ, pow_succ, Int.mul_emod, ih]
    conv_rhs => rw [Int.mul_emod]
    rw [Int.emod_emod_of_dvd _ dvd_rfl]

/-- Loop invariant of the square-and-multiply loop: for a nonzero exponent the
loop returns `(result * a ^ power) mod N`. -/
theorem modExpLoop_eq (N : ℤ) (p : ℕ) (a r : ℤ) (hp : p ≠ 0) :
    modExpLoop p a r N = (r * a ^ p) % N := by
  rw [modExpLoop_step p a r N hp]
  by_cases h2 : p / 2 = 0
  · have hp1 : p = 1 := by omega
    subst hp1
    norm_num [modExpLoop_zero]
  · rw [modExpLoop_eq N (p / 2) ((a * a) % N) _ h2]
    have hpow : a ^ p = a ^ (p % 2) * (a * a) ^ (p / 2) := by
      have : a * a = a ^ 2 := by ring
      rw [this, ← pow_mul, ← pow_add]
      congr 1
      omega
    rcases Nat.mod_two_eq_zero_or_one p with he | ho
    · rw [if_neg (by omega)]
      rw [Int.mul_emod, ← int_pow_emod, ← Int.mul_emod, hpow, he]
      ring_nf
    · rw [if_pos ho]
      rw [Int.mul_emod, ← int_pow_emod, Int.emod_emod_of_dvd _ dvd_rfl,
        ← Int.mul_emod, hpow, ho]
      ring_nf
termination_by p
decreasing_by exact Nat.div_lt_self (Nat.pos_of_ne_zero hp) one_lt_two

/-- C8 (amended): for every integer `a`, every exponent `power ≥ 0` and every
modulus `N ≥ 1`, except when `power = 0` and `N = 1`, the script's
`modular_exponentiation` returns `a ^ power mod N` (and, being total here,
it terminates).  The excluded point is the subject of the counterexample
`modular_exponentiation_at_one`. -/
theorem modular_exponentiation_correct (a : ℤ) (p : ℕ) (N : ℤ)
    (hN : 1 ≤ N) (h : 1 ≤ p ∨ 2 ≤ N) :
    modular_exponentiation a p N = a ^ p % N := by
  unfold modular_exponentiation
  by_cases hp : p = 0
  · subst hp
    have hN2 : 2 ≤ N := by omega
    rw [modExpLoop_zero]
    rw [pow_zero]
    exact (Int.emod_eq_of_lt (by omega) (by omega)).symm
  · rw [modExpLoop_eq N p (a % N) 1 hp, one_mul, ← int_pow_emod]

/-- C8, counterexample: at `power = 0`, `N = 1` the function returns `1`,
while `a ^ 0 mod 1 = 0`; the claim `modular_exponentiation(a, power, N) =
a ^ power mod N` for all `N ≥ 1` fails at this input. -/
theorem modular_exponentiation_at_one :
    modular_exponentiation 5 0 1 = 1 ∧ ((5 : ℤ) ^ 0 % 1 : ℤ) = 0 := by
  constructor
  · simp [modular_exponentiation, modExpLoop_zero]
  · decide

/-- C8, witness: the amended statement at `a = 3`, `power = 5`, `N = 7`. -/
theorem modular_exponentiation_correct_witness :
    (1 : ℤ) ≤ 7 ∧ modular_exponentiation 3 5 7 = (3 : ℤ) ^ 5 % 7 :=
  ⟨by norm_num, modular_exponentiation_correct 3 5 7 (by norm_num) (Or.inl (by norm_num))⟩

/-! ## Factors returned by `analyze_shor_measurement` are non-trivial divisors -/

/-- C9: whenever `analyze_shor_measurement` returns a factors list, every
element is a non-trivial divisor of `N`: it lies strictly between `1` and `N`
and divides `N`.  (The range bounds come from the explicit filter
`1 < guess < N`; divisibility holds because each guess is the Euclidean gcd
of something with `N`.) -/
theorem analyze_shor_factors_nontrivial (measurement n_count : ℕ) (N a : ℤ)
    (fs : List ℤ)
    (h : (analyze_shor_measurement measurement n_count N a).2 = some fs) :
    ∀ f ∈ fs, 1 < f ∧ f < N ∧ f ∣ N := by
  simp only [analyze_shor_measurement] at h
  split_ifs at h with h0 h1 h2
  intro f hf
  have h3 := Option.some.inj h
  rw [← h3] at hf
  obtain ⟨hmem, hP⟩ := List.mem_filter.mp hf
  have hPf : 1 < f ∧ f < N := by simpa using hP
  refine ⟨hPf.1, hPf.2, ?_⟩
  simp only [List.mem_cons, List.not_mem_nil, or_false] at hmem
  rcases hmem with hg | hg
  · rw [hg]; exact (pygcd_dvd _ N).1
  · rw [hg]; exact (pygcd_dvd _ N).1

/-- C9, witness: for measurement `4` with `4` counting qubits, `N = 15`,
`a = 7` the function returns the factor list `[3, 5]`, and the theorem
yields that `3` is a non-trivial divisor of `15`. -/
theorem analyze_shor_factors_nontrivial_witness :
    (analyze_shor_measurement 4 4 15 7).2 = some [3, 5] ∧
      (1 : ℤ) < 3 ∧ (3 : ℤ) < 15 ∧ (3 : ℤ) ∣ 15 := by
  have hval : (analyze_shor_measurement 4 4 15 7).2 = some [3, 5] := by
    rw [analyze_shor_measurement]
    norm_num [limit_denominator, modular_exponentiation, modExpLoop_step, modExpLoop_zero,
      pygcd_step, pygcd_zero, List.filter]
    simp
  exact ⟨hval,
    analyze_shor_factors_nontrivial 4 4 15 7 [3, 5] hval 3 (by simp)⟩

/-! ## Totality and bounds of `calculate_qber` -/

/-- C10: `calculate_qber` is total and never divides by zero: it returns `0`
on an empty `alice_key`, it always lies in `[0, 1]`, and (multiplying the
quotient out) it equals the number of positions where the two keys differ,
over the positions both keys have, divided by the length of `alice_key`. -/
theorem calculate_qber_total_and_bounded (alice bob : List ℕ) :
    (alice = [] → calculate_qber alice bob = 0) ∧
    0 ≤ calculate_qber alice bob ∧ calculate_qber alice bob ≤ 1 ∧
    calculate_qber alice bob * (alice.length : ℚ) =
      (((alice.zip bob).countP fun p => decide (p.1 ≠ p.2) : ℕ) : ℚ) := by
  by_cases hnil : alice = []
  · subst hnil
    refine ⟨fun _ => by simp [calculate_qber], ?_, ?_, ?_⟩ <;> simp [calculate_qber]
  · have hlen0 : alice.length ≠ 0 := by
      simpa [List.length_eq_zero] using hnil
    have hlen : 0 < (alice.length : ℚ) := by
      exact_mod_cast Nat.pos_of_ne_zero hlen0
    have hcount : (((alice.zip bob).countP fun p => decide (p.1 ≠ p.2) : ℕ) : ℚ) ≤
        (alice.length : ℚ) := by
      have h1 : (alice.zip bob).countP (fun p => decide (p.1 ≠ p.2)) ≤
          (alice.zip bob).length := List.countP_le_length _
      have h2 : (alice.zip bob).length ≤ alice.length := by
        rw [List.length_zip]; exact min_le_left _ _
      exact_mod_cast h1.trans h2
    unfold calculate_qber
    rw [if_neg hnil]
    refine ⟨fun h => absurd h hnil, ?_, ?_, ?_⟩
    · exact div_nonneg (by positivity) hlen.le
    · exact (div_le_one hlen).mpr hcount
    · exact div_mul_cancel₀ _ hlen.ne'

/-- C10, witness: at `alice_key = [1,0,1,1]`, `bob_key = [1,1,1]` the QBER is
defined, nonnegative and at most one. -/
theorem calculate_qber_total_and_bounded_witness :
    0 ≤ calculate_qber [1, 0, 1, 1] [1, 1, 1] ∧
      calculate_qber [1, 0, 1, 1] [1, 1, 1] ≤ 1 :=
  ⟨(calculate_qber_total_and_bounded [1, 0, 1, 1] [1, 1, 1]).2.1,
   (calculate_qber_total_and_bounded [1, 0, 1, 1] [1, 1, 1]).2.2.1⟩

/-! ## Local classical numerics (claim C3) -/

/-- C3 (amended): the scripts do implement classical numerics locally; in
particular `gcd` in `src/shor-algorithm/main.py` is a local implementation of
the Euclidean algorithm, correct on the nonnegative inputs the script feeds
it: its value is nonnegative, divides both arguments and is divisible by
every common divisor. -/
theorem pygcd_is_gcd (a b : ℤ) (ha : 0 ≤ a) (hb : 0 ≤ b) :
    0 ≤ pygcd a b ∧ pygcd a b ∣ a ∧ pygcd a b ∣ b ∧
      ∀ c : ℤ, c ∣ a → c ∣ b → c ∣ pygcd a b :=
  ⟨pygcd_nonneg a b ha hb, (pygcd_dvd a b).2, (pygcd_dvd a b).1,
   fun c hca hcb => pygcd_greatest a b c hca hcb⟩

/-- C3, counterexample to `no script implements numeric computation locally`:
`src/shor-algorithm/main.py` itself computes multi-step numeric results with
no SDK involvement — binary modular exponentiation and the Euclidean
algorithm evaluated here entirely from the script's own code. -/
theorem local_numerics_exist :
    modular_exponentiation 7 11 15 = 13 ∧ pygcd 1932 1316 = 28 := by
  constructor
  · simp [modular_exponentiation, modExpLoop_step, modExpLoop_zero]
  · simp [pygcd_step, pygcd_zero]

/-- C3, witness: the gcd characterisation applied at `a = 252`, `b = 105`
(whose gcd is `21`). -/
theorem pygcd_is_gcd_witness :
    0 ≤ pygcd 252 105 ∧ pygcd 252 105 ∣ 252 ∧ pygcd 252 105 ∣ 105 ∧
      (21 : ℤ) ∣ pygcd 252 105 := by
  obtain ⟨h0, h1, h2, h3⟩ := pygcd_is_gcd 252 105 (by norm_num) (by norm_num)
  exact ⟨h0, h1, h2, h3 21 (by norm_num) (by norm_num)⟩

/-! ## Structural shape of the 24 scripts

The next claims are about static structure: which environment variables each
script reads, what it passes to `QiskitRuntimeService`, which exception
handlers and `raise` statements it contains, and how many `sampler.run`
submissions a run performs.  These are transcribed from the sources, one
entry per script. -/

/-- Static error-handling and credentials shape of one script. -/
structure ScriptShape where
  name : String
  /-- Environment variables read via `os.getenv`, in source order. -/
  envReads : List String
  /-- The `token=`/`instance=` variables passed to `QiskitRuntimeService`,
  when the script constructs the service at all. -/
  serviceCredentialArgs : Option (String × String)
  /-- `except Exception as e` handlers printing the credential-setup hint. -/
  broadHandlerCount : ℕ
  /-- Bare `except:`/`pass` handlers (in the counts-extraction loops). -/
  bareHandlerCount : ℕ
  /-- `raise ValueError(...)` statements in the script's own code. -/
  raiseCount : ℕ
deriving DecidableEq

/-- The credential pair every service-constructing script passes:
`token=IBM_QUANTUM_TOKEN, instance=IBM_QUANTUM_INSTANCE`. -/
def credentialPair : String × String := ("IBM_QUANTUM_TOKEN", "IBM_QUANTUM_INSTANCE")

/-- Environment reads shared by every service-constructing script
(`IBM_QUANTUM_TOKEN = os.getenv("IBM_QUANTUM_TOKEN")` and the instance line
just below it, at the top of each `main.py`). -/
def standardEnvReads : List String := ["IBM_QUANTUM_TOKEN", "IBM_QUANTUM_INSTANCE"]

/-- `src/shor-algorithm/main.py`: broad handler at lines 418-422, bare
`except:`/`pass` at lines 286-287, `raise ValueError("N must be >= 3")` at
line 221. -/
def shorAlgorithmScript : ScriptShape :=
  ⟨"shor-algorithm", standardEnvReads, some credentialPair, 1, 1, 1⟩

/-- `src/error-correction/main.py`: a documentation-printing stub — no env
reads, no service, no handlers, no raises. -/
def errorCorrectionScript : ScriptShape :=
  ⟨"error-correction", [], none, 0, 0, 0⟩

/-- One entry per `main.py` under `src/`, fields read off the sources. -/
def scriptTable : List ScriptShape :=
  [⟨"amplitude-estimation", standardEnvReads, some credentialPair, 1, 1, 0⟩,
   ⟨"bb84-with-eavesdropping", standardEnvReads, some credentialPair, 1, 1, 0⟩,
   ⟨"bb84-without-eavesdropping", standardEnvReads, some credentialPair, 1, 0, 0⟩,
   ⟨"bernstein-vazirani-algorithm", standardEnvReads, some credentialPair, 1, 1, 0⟩,
   ⟨"deutsch-algorithm", standardEnvReads, some credentialPair, 1, 1, 1⟩,
   ⟨"deutsch-jozsa-algorithm", standardEnvReads, some credentialPair, 1, 1, 1⟩,
   ⟨"e91-protocol", standardEnvReads, some credentialPair, 1, 2, 0⟩,
   errorCorrectionScript,
   ⟨"grover-algorithm", standardEnvReads, some credentialPair, 1, 1, 0⟩,
   ⟨"hhl-algorithm", standardEnvReads, some credentialPair, 1, 1, 0⟩,
   ⟨"qaoa", standardEnvReads, some credentialPair, 1, 1, 0⟩,
   ⟨"quantum-counting", standardEnvReads, some credentialPair, 1, 1, 0⟩,
   ⟨"qec-bit-flip-code", standardEnvReads, some credentialPair, 1, 1, 0⟩,
   ⟨"qec-shor-9qubit-code", standardEnvReads, some credentialPair, 1, 1, 0⟩,
   ⟨"qec-steane-7qubit-code", standardEnvReads, some credentialPair, 1, 1, 0⟩,
   ⟨"quantum-fourier-transform", standardEnvReads, some credentialPair, 1, 1, 0⟩,
   ⟨"quantum-phase-estimation", standardEnvReads, some credentialPair, 1, 1, 0⟩,
   ⟨"quantum-teleportation", standardEnvReads, some credentialPair, 1, 1, 0⟩,
   ⟨"quantum-walk", standardEnvReads, some credentialPair, 1, 1, 0⟩,
   shorAlgorithmScript,
   ⟨"simon-algorithm", standardEnvReads, some credentialPair, 1, 1, 0⟩,
   ⟨"superdense-coding", standardEnvReads, some credentialPair, 1, 1, 1⟩,
   ⟨"swap-test", standardEnvReads, some credentialPair, 1, 1, 0⟩,
   ⟨"vqe", standardEnvReads, some credentialPair, 1, 1, 0⟩]

/-- C2 (amended): every script except the `error-correction` index stub has
exactly one broad credential-hint handler; in addition the hardware scripts
contain up to two bare `except: pass` handlers in their counts-extraction
loops, and four scripts raise `ValueError` on invalid arguments (at most one
`raise` per script); there is still no retry or recovery logic. -/
theorem script_error_handling_shape :
    ∀ s ∈ scriptTable,
      (s.name ≠ "error-correction" → s.broadHandlerCount = 1) ∧
      (s.name = "error-correction" →
        s.broadHandlerCount = 0 ∧ s.bareHandlerCount = 0 ∧ s.raiseCount = 0) ∧
      s.bareHandlerCount ≤ 2 ∧ s.raiseCount ≤ 1 := by
  decide

/-- C2, counterexample: the Shor script has a second exception handler (the
bare `except:` at line 286) beside the broad one, and raises a `ValueError`
of its own (line 221) — so its error handling is not `exactly one broad
handler, no other handlers, no raised exceptions`. -/
theorem shor_has_inner_handler_and_raise :
    shorAlgorithmScript ∈ scriptTable ∧
      shorAlgorithmScript.broadHandlerCount = 1 ∧
      shorAlgorithmScript.bareHandlerCount = 1 ∧
      shorAlgorithmScript.raiseCount = 1 := by
  decide

/-- C2, witness: the amended statement instantiated at the Shor script. -/
theorem script_error_handling_shape_witness :
    ("shor-algorithm" ≠ "error-correction" → shorAlgorithmScript.broadHandlerCount = 1) ∧
      shorAlgorithmScript.bareHandlerCount ≤ 2 ∧ shorAlgorithmScript.raiseCount ≤ 1 := by
  have h := script_error_handling_shape shorAlgorithmScript (by decide)
  exact ⟨h.1, h.2.2⟩

/-- C7 (amended): every script that constructs the runtime service reads
exactly the two environment variables `IBM_QUANTUM_TOKEN` and
`IBM_QUANTUM_INSTANCE` and passes exactly those to the service constructor;
the `error-correction` index stub reads no environment variable and builds no
service. -/
theorem script_env_reads :
    ∀ s ∈ scriptTable,
      (s.envReads = standardEnvReads ∧ s.serviceCredentialArgs = some credentialPair) ∨
      (s.envReads = [] ∧ s.serviceCredentialArgs = none) := by
  decide

/-- C7, counterexample: the `error-correction` script is a script of the
repository that obtains no credentials and reads no environment variable at
all, so `every script obtains its credentials from exactly two environment
variables` fails on it. -/
theorem error_correction_reads_no_env :
    errorCorrectionScript ∈ scriptTable ∧ errorCorrectionScript.envReads = [] ∧
      errorCorrectionScript.envReads ≠ standardEnvReads := by
  decide

/-- C7, witness: the amended statement instantiated at the Shor script. -/
theorem script_env_reads_witness :
    (shorAlgorithmScript.envReads = standardEnvReads ∧
        shorAlgorithmScript.serviceCredentialArgs = some credentialPair) ∨
      (shorAlgorithmScript.envReads = [] ∧
        shorAlgorithmScript.serviceCredentialArgs = none) :=
  script_env_reads shorAlgorithmScript (by decide)

/-! ## Job submissions per VQE run (claim C1) -/

/-- The simplified H₂ Hamiltonian hard-coded in `run_vqe`
(`src/vqe/main.py` lines 208-215), coefficients as the decimal literals. -/
def vqe_hamiltonian : List (ℚ × String) :=
  [(-1.0523732, "II"),
   (0.39793742, "IZ"),
   (-0.39793742, "ZI"),
   (-0.01128010, "ZZ"),
   (0.18093119, "XX"),
   (0.18093119, "YY")]

/-- `'I' * n_qubits`: the all-identity Pauli string. -/
def identityString (n_qubits : ℕ) : String := String.mk (List.replicate n_qubits 'I')

/-- Number of `sampler.run` submissions performed by one call of
`run_vqe_iteration` (`src/vqe/main.py` lines 128-191): the loop over the
Hamiltonian terms `continue`s on the all-identity string and otherwise
transpiles and submits exactly one job (line 170). -/
def run_vqe_iteration_submissions (hamiltonian : List (ℚ × String)) (n_qubits : ℕ) : ℕ :=
  (hamiltonian.filter fun t => decide (t.2 ≠ identityString n_qubits)).length

/-- Number of `sampler.run` submissions performed by `run_vqe`
(`src/vqe/main.py` lines 194-268): the optimization loop (line 241) calls
`run_vqe_iteration` once per iteration. -/
def run_vqe_submissions (n_qubits max_iterations : ℕ) : ℕ :=
  max_iterations * run_vqe_iteration_submissions vqe_hamiltonian n_qubits

/-- C1 (amended): a VQE run submits one job per non-identity Hamiltonian term
per optimization iteration — five per iteration, hence fifteen in the
configuration the script runs (`__main__`: `n_qubits = 2`,
`max_iterations = 3`), not a single submission per run. -/
theorem vqe_submission_count :
    run_vqe_iteration_submissions vqe_hamiltonian 2 = 5 ∧
      run_vqe_submissions 2 3 = 15 := by
  constructor <;> decide

/-- C1, counterexample: the shipped VQE run performs `15` job submissions,
refuting `at most one call to sampler.run per run of a script` and in
particular `exactly one submission for the VQE script`. -/
theorem vqe_submission_count_not_one :
    run_vqe_submissions 2 3 = 15 ∧ (15 : ℕ) ≠ 1 := by
  constructor <;> decide

/-! ## The classical dispatch of `run_shor` (claim C5) -/

/-- What a call of `run_shor` does before any circuit exists. -/
inductive RunShorOutcome where
  /-- `raise ValueError("N must be >= 3")`, line 221. -/
  | raisesValueError : RunShorOutcome
  /-- An early `return {'factors': ..., 'trivial': True}` with no circuit
  construction and no submission (lines 222-242). -/
  | trivialFactors : List ℤ → RunShorOutcome
  /-- The function proceeds to build the Shor circuit and submit it with
  base `a` (lines 244-268). -/
  | quantumSubmission : ℤ → RunShorOutcome
deriving DecidableEq

/-- Largest `r` with `r ^ k ≤ n`. -/
def floorRoot (k n : ℕ) : ℕ :=
  ((List.range (n + 1)).filter fun r => decide (r ^ k ≤ n)).getLastD 0

/-- `round(N ** (1 / k))`: the integer nearest to the real `k`-th root of
`n`.  The script computes this in floating point; for the small `N` the
script uses, the float is exact enough that this is the nearest integer
(`r` when `n < (r + 1/2)^k`, i.e. `2^k * n < (2r+1)^k`, else `r + 1`;
for `k ≥ 1` the root is never exactly half-way). -/
def roundRoot (k n : ℕ) : ℕ :=
  let r := floorRoot k n
  if 2 ^ k * n < (2 * r + 1) ^ k then r else r + 1

/-- The prime-power test of `run_shor` (`src/shor-algorithm/main.py` lines
227-231): `for k in range(2, int(math.log2(N)) + 1): root = round(N**(1/k));
if root ** k == N: return ...`.  Returns the first such root. -/
def primePowerRoot (n : ℕ) : Option ℕ :=
  (List.range' 2 (Nat.log2 n - 1)).findSome? fun k =>
    if roundRoot k n ^ k = n then some (roundRoot k n) else none

/-- The classical dispatch of `run_shor(N, a, ...)` (`src/shor-algorithm/main.py`
lines 206-268): validation, even shortcut, prime-power shortcut, default
base `a = 7`, lucky-gcd shortcut; only when all shortcuts fail does the function build
the circuit and submit it. -/
def run_shor_plan (N : ℤ) (a : Option ℤ) : RunShorOutcome :=
  if N < 3 then .raisesValueError
  else if N % 2 = 0 then .trivialFactors [2, N / 2]
  else
    match primePowerRoot N.toNat with
    | some root => .trivialFactors [(root : ℤ)]
    | none =>
      let a0 := a.getD 7
      let g := pygcd a0 N
      if 1 < g then .trivialFactors [g, N / g]
      else .quantumSubmission a0

/-- C5 (amended): the shipped Shor configuration (`N = 15`, `a = 7`) does
follow the construct-circuit → submit → print shape: its classical dispatch
reaches the submission stage. -/
theorem run_shor_shipped_submits :
    run_shor_plan 15 (some 7) = .quantumSubmission 7 := by
  have hpp : primePowerRoot 15 = none := by
    unfold primePowerRoot
    rw [show Nat.log2 15 = 3 by simp [Nat.log2]]
    decide
  have hg : pygcd 7 15 = 1 := by simp [pygcd_step, pygcd_zero]
  unfold run_shor_plan
  rw [if_neg (by decide), if_neg (by decide),
    show Int.toNat 15 = 15 from rfl, hpp]
  simp [hg]

/-- C5, counterexample: calling the Shor entry point on a prime power, e.g.
`run_shor(9, 7)`, returns the factor list `[3]` (printed by
`analyze_results`) without ever constructing a circuit or submitting a job;
so not every result analysis is preceded by a submission. -/
theorem run_shor_nine_is_trivial :
    run_shor_plan 9 (some 7) = .trivialFactors [3] := by
  have hpp : primePowerRoot 9 = some 3 := by
    unfold primePowerRoot
    rw [show Nat.log2 9 = 3 by simp [Nat.log2]]
    decide
  unfold run_shor_plan
  rw [if_neg (by decide), if_neg (by decide),
    show Int.toNat 9 = 9 from rfl, hpp]
  rfl

/-! ## Gate-list model of the SDK circuits

A Qiskit circuit built by the scripts is a sequence of gate-append calls; we
model it as a `List Gate` in append order.  `QuantumCircuit.inverse()`
reverses the list and inverts each gate, which is `circuitInverse`. -/

/-- One SDK gate call, on qubit indices.  `cp` stores its angle as the
fraction of a full turn: the sources always pass the float
`2 * math.pi / 2 ** k`, i.e. `1 / 2 ** k` of a turn, which is exact here. -/
inductive Gate where
  | h (i : ℕ)
  | x (i : ℕ)
  | z (i : ℕ)
  | cz (i j : ℕ)
  | cp (turn : ℚ) (i j : ℕ)
  | swap (i j : ℕ)
  | mcx (ctrls : List ℕ) (t : ℕ)
deriving DecidableEq

/-- Gate inversion as performed by `QuantumCircuit.inverse()`: `h`, `x`, `z`,
`cz`, `swap` and `mcx` are self-inverse; `cp` negates its angle. -/
def Gate.inverseGate : Gate → Gate
  | .cp turn i j => .cp (-turn) i j
  | g => g

/-- `QuantumCircuit.inverse()`: invert every gate and reverse the order. -/
def circuitInverse (c : List Gate) : List Gate :=
  (c.map Gate.inverseGate).reverse

/-- A pure state over qubits indexed by `ℕ`: an amplitude for every
assignment of basis values.  A circuit on `n` qubits only touches indices
below `n`. -/
def QState : Type := (ℕ → Bool) → ℂ

/-- `1 / √2`, the Hadamard normalisation. -/
noncomputable def invSqrt2 : ℂ := ((Real.sqrt 2 : ℝ) : ℂ)⁻¹

/-- The usual unitary action of one gate on a state, written pointwise on
amplitudes (for the basis-permutation gates `Uψ = ψ ∘ σ` with `σ` the
self-inverse basis permutation). -/
noncomputable def applyGate : Gate → QState → QState
  | .h i, ψ => fun b =>
      (ψ (Function.update b i false) +
        (if b i then -1 else 1) * ψ (Function.update b i true)) * invSqrt2
  | .x i, ψ => fun b => ψ (Function.update b i (! b i))
  | .z i, ψ => fun b => (if b i then -1 else 1) * ψ b
  | .cz i j, ψ => fun b => (if b i && b j then -1 else 1) * ψ b
  | .cp turn i j, ψ => fun b =>
      (if b i && b j then Complex.exp (2 * Real.pi * Complex.I * (turn : ℂ)) else 1) * ψ b
  | .swap i j, ψ => fun b => ψ (Function.update (Function.update b i (b j)) j (b i))
  | .mcx ctrls t, ψ => fun b =>
      if ctrls.all fun c => b c then ψ (Function.update b t (! b t)) else ψ b

/-- Run a gate list left to right. -/
noncomputable def applyCircuit (c : List Gate) (ψ : QState) : QState :=
  c.foldl (fun φ g => applyGate g φ) ψ

theorem applyCircuit_nil (ψ : QState) : applyCircuit [] ψ = ψ := rfl

theorem applyCircuit_cons (g : Gate) (c : List Gate) (ψ : QState) :
    applyCircuit (g :: c) ψ = applyCircuit c (applyGate g ψ) := rfl

theorem applyCircuit_append (c₁ c₂ : List Gate) (ψ : QState) :
    applyCircuit (c₁ ++ c₂) ψ = applyCircuit c₂ (applyCircuit c₁ ψ) :=
  List.foldl_append _ _ _ _

/-! ## The QFT circuits of `src/quantum-fourier-transform/main.py` -/

/-- `qft_rotations(circuit, n)` (lines 13-37): after `n -= 1` it appends
`h(n)`, then `cp(2π / 2^(n - qubit + 1), qubit, n)` for `qubit` in
`range(n)`, then recurses. -/
def qft_rotations : ℕ → List Gate
  | 0 => []
  | n + 1 =>
    [Gate.h n] ++
      ((List.range n).map fun qubit => Gate.cp (1 / 2 ^ (n - qubit + 1)) qubit n) ++
      qft_rotations n

/-- `swap_registers(circuit, n)` (lines 40-49): `swap(qubit, n - qubit - 1)`
for `qubit` in `range(n // 2)`. -/
def swap_registers (n : ℕ) : List Gate :=
  (List.range (n / 2)).map fun qubit => Gate.swap qubit (n - qubit - 1)

/-- `create_qft_circuit(n_qubits)` (lines 52-78), with the default
`swap=True` used by the script run. -/
def create_qft_circuit (n_qubits : ℕ) : List Gate :=
  qft_rotations n_qubits ++ swap_registers n_qubits

/-- `create_inverse_qft_circuit(n_qubits)` (lines 81-97):
`create_qft_circuit(n_qubits).inverse()`. -/
def create_inverse_qft_circuit (n_qubits : ℕ) : List Gate :=
  circuitInverse (create_qft_circuit n_qubits)

/-! ## The Grover circuits of `src/grover-algorithm/main.py` -/

/-- The `X` gates `create_oracle` places around a multi-controlled `Z` on the
qubits where the target's bit is `0` (lines 40-42 and 56-58). -/
def xMask (n_qubits target : ℕ) : List Gate :=
  (List.range n_qubits).filterMap fun i =>
    if Nat.testBit target i then none else some (Gate.x i)

/-- The multi-controlled `Z` used by both the oracle and the diffuser
(lines 44-53 and 88-96): `z` on one qubit, `cz` on two, and
`h(n-1); mcx(range(n-1), n-1); h(n-1)` otherwise. -/
def mczBlock (n_qubits : ℕ) : List Gate :=
  if n_qubits = 1 then [Gate.z 0]
  else if n_qubits = 2 then [Gate.cz 0 1]
  else
    [Gate.h (n_qubits - 1), Gate.mcx (List.range (n_qubits - 1)) (n_qubits - 1),
     Gate.h (n_qubits - 1)]

/-- `create_oracle(n_qubits, marked_states)` (lines 13-60), with the marked
states already as integers (the source converts binary strings with
`int(state, 2)` first). -/
def create_oracle (n_qubits : ℕ) (marked_states : List ℕ) : List Gate :=
  (marked_states.map fun target =>
    xMask n_qubits target ++ mczBlock n_qubits ++ xMask n_qubits target).flatten

/-- `create_diffuser(n_qubits)` (lines 63-106): `H` on all qubits, `X` on all
qubits, the multi-controlled `Z`, `X` on all, `H` on all. -/
def create_diffuser (n_qubits : ℕ) : List Gate :=
  ((List.range n_qubits).map Gate.h) ++ ((List.range n_qubits).map Gate.x) ++
    mczBlock n_qubits ++
    ((List.range n_qubits).map Gate.x) ++ ((List.range n_qubits).map Gate.h)

/-! ## Each gate is undone by its inverse -/

theorem invSqrt2_mul_self : invSqrt2 * invSqrt2 = 2⁻¹ := by
  rw [invSqrt2, ← mul_inv, ← Complex.ofReal_mul,
    Real.mul_self_sqrt (by norm_num : (0 : ℝ) ≤ 2)]
  norm_num

theorem applyGate_h_h (i : ℕ) (ψ : QState) :
    applyGate (.h i) (applyGate (.h i) ψ) = ψ := by
  funext b
  simp only [applyGate, Function.update_idem, Function.update_same]
  cases hb : b i
  · rw [show Function.update b i false = b by rw [← hb]; exact Function.update_eq_self i b]
    norm_num
    linear_combination (2 * ψ b) * invSqrt2_mul_self
  · rw [show Function.update b i true = b by rw [← hb]; exact Function.update_eq_self i b]
    norm_num
    linear_combination (2 * ψ b) * invSqrt2_mul_self

theorem applyGate_x_x (i : ℕ) (ψ : QState) :
    applyGate (.x i) (applyGate (.x i) ψ) = ψ := by
  funext b
  simp only [applyGate, Function.update_same, Function.update_idem, Bool.not_not]
  rw [Function.update_eq_self]

theorem applyGate_swap_swap (i j : ℕ) (ψ : QState) :
    applyGate (.swap i j) (applyGate (.swap i j) ψ) = ψ := by
  funext b
  simp only [applyGate]
  congr 1
  funext m
  simp only [Function.update_apply]
  by_cases hmj : m = j <;> by_cases hmi : m = i <;> by_cases hij : i = j <;>
    simp_all

theorem list_all_update (ctrls : List ℕ) (t : ℕ) (ht : t ∉ ctrls) (b : ℕ → Bool)
    (v : Bool) :
    (ctrls.all fun c => Function.update b t v c) = ctrls.all fun c => b c := by
  induction ctrls with
  | nil => rfl
  | cons c cs ih =>
    have h1 : ¬ c = t := fun hc => ht (hc ▸ List.mem_cons_self c cs)
    have h2 : t ∉ cs := fun hm => ht (List.mem_cons_of_mem c hm)
    simp only [List.all_cons]
    rw [Function.update_apply, if_neg h1, ih h2]

theorem applyGate_mcx_mcx (ctrls : List ℕ) (t : ℕ) (ht : t ∉ ctrls) (ψ : QState) :
    applyGate (.mcx ctrls t) (applyGate (.mcx ctrls t) ψ) = ψ := by
  funext b
  simp only [applyGate]
  by_cases hC : (ctrls.all fun c => b c) = true
  · rw [if_pos hC, if_pos (by rw [list_all_update ctrls t ht]; exact hC),
      Function.update_idem, Function.update_same, Bool.not_not,
      Function.update_eq_self]
  · rw [if_neg hC, if_neg hC]

/-- A gate as the scripts build them: a multi-controlled `X` never has its
target among its controls (none of the gates in the QFT circuits is an `mcx`
at all). -/
def Gate.wellFormed : Gate → Prop
  | .mcx ctrls t => t ∉ ctrls
  | _ => True

theorem applyGate_inverseGate (g : Gate) (hg : g.wellFormed) (ψ : QState) :
    applyGate g.inverseGate (applyGate g ψ) = ψ := by
  cases g with
  | h i => exact applyGate_h_h i ψ
  | x i => exact applyGate_x_x i ψ
  | z i =>
    funext b
    simp only [Gate.inverseGate, applyGate]
    split_ifs <;> ring
  | cz i j =>
    funext b
    simp only [Gate.inverseGate, applyGate]
    split_ifs <;> ring
  | cp turn i j =>
    funext b
    simp only [Gate.inverseGate, applyGate]
    split_ifs with hc
    · rw [← mul_assoc, ← Complex.exp_add]
      have hzero : 2 * (Real.pi : ℂ) * Complex.I * ((-turn : ℚ) : ℂ) +
          2 * (Real.pi : ℂ) * Complex.I * ((turn : ℚ) : ℂ) = 0 := by
        push_cast
        ring
      rw [hzero, Complex.exp_zero, one_mul]
    · ring
  | swap i j => exact applyGate_swap_swap i j ψ
  | mcx ctrls t => exact applyGate_mcx_mcx ctrls t hg ψ

/-- Appending the SDK-inverted circuit undoes the circuit. -/
theorem applyCircuit_inverse (c : List Gate) (hc : ∀ g ∈ c, g.wellFormed)
    (ψ : QState) : applyCircuit (c ++ circuitInverse c) ψ = ψ := by
  induction c generalizing ψ with
  | nil => rfl
  | cons g c ih =>
    have hg : g.wellFormed := hc g (List.mem_cons_self g c)
    have hc' : ∀ g' ∈ c, g'.wellFormed :=
      fun g' hg' => hc g' (List.mem_cons_of_mem g hg')
    rw [show (g :: c) ++ circuitInverse (g :: c) =
          g :: ((c ++ circuitInverse c) ++ [g.inverseGate]) by
        simp [circuitInverse, List.append_assoc]]
    rw [applyCircuit_cons, applyCircuit_append, ih hc', applyCircuit_cons,
      applyCircuit_nil]
    exact applyGate_inverseGate g hg ψ

theorem qft_rotations_wellFormed (n : ℕ) : ∀ g ∈ qft_rotations n, g.wellFormed := by
  induction n with
  | zero => intro g hg; simp [qft_rotations] at hg
  | succ n ih =>
    intro g hg
    simp only [qft_rotations, List.mem_append, List.mem_singleton, List.mem_map,
      List.mem_range] at hg
    rcases hg with (rfl | ⟨q, _, rfl⟩) | hg
    · trivial
    · trivial
    · exact ih g hg

theorem create_qft_circuit_wellFormed (n : ℕ) :
    ∀ g ∈ create_qft_circuit n, g.wellFormed := by
  intro g hg
  rcases List.mem_append.mp hg with hg | hg
  · exact qft_rotations_wellFormed n g hg
  · obtain ⟨q, _, rfl⟩ := List.mem_map.mp hg
    trivial

/-- C4 (amended): the repository does have deterministic, locally verifiable
behavior.  The spec's own example round-trip holds: for every number of
qubits, running `create_qft_circuit(n)` followed by
`create_inverse_qft_circuit(n)` is the identity on states. -/
theorem qft_inverse_roundtrip (n : ℕ) (ψ : QState) :
    applyCircuit (create_qft_circuit n ++ create_inverse_qft_circuit n) ψ = ψ :=
  applyCircuit_inverse _ (create_qft_circuit_wellFormed n) ψ

/-- C4, counterexample to `no deterministic, locally-verifiable behavior`:
`calculate_qber` is a deterministic local function of its two arguments — on
concrete keys it evaluates, with no hardware involved, to a fixed rational. -/
theorem qber_deterministic_value : calculate_qber [0, 1, 1] [0, 0, 1] = 1 / 3 := by
  rw [calculate_qber]
  norm_num [List.zip, List.zipWith, List.countP, List.countP.go]
  simp

/-! ## Phase-oracle correctness (claim C6, oracle half) -/

/-- The basis permutation performed by `xMask n t`: flip every bit `i < n`
where the target `t` has a `0` bit. -/
def flipMask (n t : ℕ) (b : ℕ → Bool) : ℕ → Bool :=
  fun i => if i < n ∧ ¬ t.testBit i then ! b i else b i

theorem flipMask_flipMask (n t : ℕ) (b : ℕ → Bool) :
    flipMask n t (flipMask n t b) = b := by
  funext i
  simp only [flipMask]
  split_ifs <;> simp

theorem applyCircuit_xMask (n t : ℕ) (ψ : QState) (b : ℕ → Bool) :
    applyCircuit (xMask n t) ψ b = ψ (flipMask n t b) := by
  induction n generalizing b with
  | zero =>
    have h0 : flipMask 0 t b = b := by
      funext i
      simp [flipMask]
    rw [h0]
    rfl
  | succ n ih =>
    have hsplit : xMask (n + 1) t =
        xMask n t ++ if t.testBit n then [] else [Gate.x n] := by
      simp only [xMask, List.range_succ, List.filterMap_append]
      congr 1
      by_cases hbit : t.testBit n <;> simp [hbit]
    rw [hsplit, applyCircuit_append]
    by_cases hbit : t.testBit n
    · rw [if_pos hbit, applyCircuit_nil, ih]
      congr 1
      funext i
      simp only [flipMask]
      by_cases hi : i = n
      · subst hi; simp [hbit]
      · by_cases hilt : i < n
        · simp [hilt, Nat.lt_succ_of_lt hilt]
        · have : ¬ i < n + 1 := by omega
          simp [hilt, this]
    · rw [if_neg hbit, applyCircuit_cons, applyCircuit_nil]
      simp only [applyGate]
      rw [ih]
      congr 1
      funext i
      simp only [flipMask, Function.update_apply]
      by_cases hi : i = n
      · subst hi
        simp [hbit, Nat.lt_irrefl]
      · by_cases hilt : i < n
        · simp [hi, hilt, Nat.lt_succ_of_lt hilt]
        · have h2 : ¬ i < n + 1 := by omega
          simp [hi, hilt, h2]

/-- The basis permutation of `X` on every qubit below `n`. -/
def flipAll (n : ℕ) (b : ℕ → Bool) : ℕ → Bool :=
  fun i => if i < n then ! b i else b i

theorem flipAll_flipAll (n : ℕ) (b : ℕ → Bool) : flipAll n (flipAll n b) = b := by
  funext i
  simp only [flipAll]
  split_ifs <;> simp

theorem applyCircuit_xAll (n : ℕ) (ψ : QState) (b : ℕ → Bool) :
    applyCircuit ((List.range n).map Gate.x) ψ b = ψ (flipAll n b) := by
  induction n generalizing b with
  | zero =>
    have h0 : flipAll 0 b = b := by
      funext i
      simp [flipAll]
    rw [h0]
    rfl
  | succ n ih =>
    rw [List.range_succ, List.map_append, applyCircuit_append]
    simp only [List.map_cons, List.map_nil, applyCircuit_cons, applyCircuit_nil,
      applyGate]
    rw [ih]
    congr 1
    funext i
    simp only [flipAll, Function.update_apply]
    by_cases hi : i = n
    · subst hi; simp [Nat.lt_irrefl]
    · by_cases hilt : i < n
      · simp [hi, hilt, Nat.lt_succ_of_lt hilt]
      · have h2 : ¬ i < n + 1 := by omega
        simp [hi, hilt, h2]

/-- `H(t); MCX(ctrls, t); H(t)` is a multi-controlled `Z`: it flips the phase
exactly when all controls and the target read `1`. -/
theorem h_mcx_h_apply (ctrls : List ℕ) (t : ℕ) (ht : t ∉ ctrls) (ψ : QState)
    (b : ℕ → Bool) :
    applyCircuit [Gate.h t, Gate.mcx ctrls t, Gate.h t] ψ b =
      (if ((ctrls.all fun c => b c) && b t) = true then -1 else 1) * ψ b := by
  simp only [applyCircuit, List.foldl, applyGate, Function.update_idem,
    Function.update_same, list_all_update ctrls t ht]
  by_cases hC : (ctrls.all fun c => b c) = true
  · simp only [hC, if_true, Bool.true_and]
    cases hb : b t
    · rw [show Function.update b t false = b by rw [← hb]; exact Function.update_eq_self t b]
      norm_num
      linear_combination (2 * ψ b) * invSqrt2_mul_self
    · rw [show Function.update b t true = b by rw [← hb]; exact Function.update_eq_self t b]
      norm_num
      linear_combination (-2 * ψ b) * invSqrt2_mul_self
  · simp only [hC, if_false, Bool.false_and]
    cases hb : b t
    · rw [show Function.update b t false = b by rw [← hb]; exact Function.update_eq_self t b]
      norm_num
      linear_combination (2 * ψ b) * invSqrt2_mul_self
    · rw [show Function.update b t true = b by rw [← hb]; exact Function.update_eq_self t b]
      norm_num
      linear_combination (2 * ψ b) * invSqrt2_mul_self

/-- The multi-controlled `Z` block built by the Grover script flips the phase
exactly of the all-ones assignment of the first `n` qubits. -/
theorem mczBlock_apply (n : ℕ) (hn : 1 ≤ n) (ψ : QState) (b : ℕ → Bool) :
    applyCircuit (mczBlock n) ψ b =
      (if ∀ i < n, b i = true then -1 else 1) * ψ b := by
  rcases n with _ | _ | _ | n
  · omega
  · -- n = 1: a single z 0
    simp only [mczBlock, if_pos rfl]
    simp only [applyCircuit, List.foldl, applyGate]
    have : (∀ i < 1, b i = true) ↔ b 0 = true := by
      constructor
      · exact fun h => h 0 one_pos
      · intro h i hi
        interval_cases i
        exact h
    cases hb : b 0 <;> simp [hb, this]
  · -- n = 2: cz 0 1
    simp only [mczBlock]
    norm_num
    simp only [applyCircuit, List.foldl, applyGate]
    have : (b 0 && b 1) = true ↔ ∀ i < 2, b i = true := by
      constructor
      · intro h i hi
        interval_cases i <;> simp_all
      · intro h
        simp [h 0 (by omega), h 1 (by omega)]
    by_cases hb : (b 0 && b 1) = true
    · rw [if_pos hb, if_pos (this.mp hb)]
      ring
    · rw [if_neg hb, if_neg (fun hall => hb (this.mpr hall))]
      ring
  · -- n ≥ 3: h, mcx, h
    have h3 : ¬ (n + 3 = 1) := by omega
    have h4 : ¬ (n + 3 = 2) := by omega
    simp only [mczBlock, if_neg h3, if_neg h4]
    have ht : (n + 3 - 1) ∉ List.range (n + 3 - 1) := by
      simp
    rw [h_mcx_h_apply _ _ ht]
    have hiff : (((List.range (n + 3 - 1)).all fun c => b c) && b (n + 3 - 1)) = true ↔
        ∀ i < n + 3, b i = true := by
      simp only [Bool.and_eq_true, List.all_eq_true, List.mem_range]
      constructor
      · rintro ⟨hlo, hhi⟩ i hi
        rcases Nat.lt_or_ge i (n + 3 - 1) with h | h
        · exact hlo i h
        · have : i = n + 3 - 1 := by omega
          subst this
          exact hhi
      · intro h
        exact ⟨fun i hi => h i (by omega), h (n + 3 - 1) (by omega)⟩
    by_cases hb : (((List.range (n + 3 - 1)).all fun c => b c) && b (n + 3 - 1)) = true
    · rw [if_pos hb, if_pos (hiff.mp hb)]
    · rw [if_neg hb, if_neg (fun hall => hb (hiff.mpr hall))]

/-- The number encoded (little-endian, as in the script's `(target >> i) & 1`)
by the first `n` qubit values of a basis assignment. -/
def firstBits : ℕ → (ℕ → Bool) → ℕ
  | 0, _ => 0
  | n + 1, b => (if b n then 2 ^ n else 0) + firstBits n b

theorem firstBits_lt (n : ℕ) (b : ℕ → Bool) : firstBits n b < 2 ^ n := by
  induction n with
  | zero => simp [firstBits]
  | succ n ih =>
    have h2 : (2 : ℕ) ^ (n + 1) = 2 ^ n + 2 ^ n := by ring
    simp only [firstBits]
    split_ifs <;> omega

theorem testBit_firstBits (n : ℕ) (b : ℕ → Bool) (i : ℕ) :
    (firstBits n b).testBit i = (decide (i < n) && b i) := by
  induction n with
  | zero => simp [firstBits]
  | succ n ih =>
    simp only [firstBits]
    by_cases hb : b n
    · rw [if_pos hb]
      by_cases hi : i = n
      · subst hi
        rw [Nat.testBit_two_pow_add_eq]
        have : (firstBits i b).testBit i = false := by
          rw [ih]
          simp
        rw [this]
        simp [hb]
      · by_cases hilt : i < n
        · rw [Nat.testBit_two_pow_add_gt hilt, ih]
          have h1 : i < n + 1 := by omega
          simp [hilt, h1]
        · have hio : n < i := by omega
          have hlt : 2 ^ n + firstBits n b < 2 ^ i := by
            have h1 := firstBits_lt n b
            have h2 : 2 ^ (n + 1) ≤ 2 ^ i := Nat.pow_le_pow_right (by norm_num) (by omega)
            have h3 : (2 : ℕ) ^ (n + 1) = 2 ^ n + 2 ^ n := by ring
            omega
          rw [Nat.testBit_lt_two_pow hlt]
          have : ¬ i < n + 1 := by omega
          simp [this]
    · rw [if_neg hb, zero_add, ih]
      by_cases hi : i = n
      · subst hi
        simp [hb]
      · by_cases hilt : i < n
        · have h1 : i < n + 1 := by omega
          simp [hilt, h1]
        · have h2 : ¬ i < n + 1 := by omega
          simp [hilt, h2]

theorem firstBits_eq_iff (n t : ℕ) (ht : t < 2 ^ n) (b : ℕ → Bool) :
    firstBits n b = t ↔ ∀ i < n, b i = t.testBit i := by
  constructor
  · intro h i hi
    have := testBit_firstBits n b i
    rw [h] at this
    rw [this]
    simp [hi]
  · intro h
    apply Nat.eq_of_testBit_eq
    intro j
    rw [testBit_firstBits]
    by_cases hj : j < n
    · rw [h j hj]
      simp [hj]
    · rw [Nat.testBit_lt_two_pow (lt_of_lt_of_le ht (Nat.pow_le_pow_right (by norm_num) (by omega)))]
      simp [hj]

/-- One `X-mask; multi-controlled Z; X-mask` block of the oracle flips the
phase exactly of the basis assignments whose first `n` bits encode the
target. -/
theorem oracle_block_apply (n t : ℕ) (hn : 1 ≤ n) (ht : t < 2 ^ n) (ψ : QState)
    (b : ℕ → Bool) :
    applyCircuit (xMask n t ++ mczBlock n ++ xMask n t) ψ b =
      (if firstBits n b = t then -1 else 1) * ψ b := by
  rw [applyCircuit_append, applyCircuit_append, applyCircuit_xMask,
    mczBlock_apply n hn, applyCircuit_xMask, flipMask_flipMask]
  have hcond : (∀ i < n, flipMask n t b i = true) ↔ firstBits n b = t := by
    rw [firstBits_eq_iff n t ht b]
    constructor
    · intro h i hi
      have hfi := h i hi
      simp only [flipMask] at hfi
      by_cases hbit : t.testBit i
      · rw [if_neg (by simp [hbit])] at hfi
        rw [hfi, hbit]
      · have hbf : t.testBit i = false := by simpa using hbit
        rw [if_pos ⟨hi, hbit⟩] at hfi
        have hb0 : b i = false := by
          cases hb : b i
          · rfl
          · rw [hb] at hfi; simp at hfi
        rw [hb0, hbf]
    · intro h i hi
      simp only [flipMask]
      by_cases hbit : t.testBit i
      · rw [if_neg (by simp [hbit])]
        rw [h i hi, hbit]
      · have hbf : t.testBit i = false := by simpa using hbit
        rw [if_pos ⟨hi, hbit⟩, h i hi, hbf]
        rfl
  by_cases hall : ∀ i < n, flipMask n t b i = true
  · rw [if_pos hall, if_pos (hcond.mp hall)]
  · rw [if_neg hall, if_neg (fun heq => hall (hcond.mpr heq))]

/-- C6 (oracle half): `create_oracle` implements the phase oracle
`|x⟩ → (-1)^f(x) |x⟩`, `f(x) = 1` exactly when `x` is marked. -/
theorem create_oracle_apply (n : ℕ) (hn : 1 ≤ n) (marked : List ℕ)
    (hnd : marked.Nodup) (hlt : ∀ t ∈ marked, t < 2 ^ n) (ψ : QState)
    (b : ℕ → Bool) :
    applyCircuit (create_oracle n marked) ψ b =
      (if firstBits n b ∈ marked then -1 else 1) * ψ b := by
  induction marked generalizing ψ with
  | nil =>
    simp only [create_oracle, List.map_nil, List.flatten_nil, applyCircuit_nil,
      List.not_mem_nil, if_false, one_mul]
  | cons t ms ih =>
    have hsplit : create_oracle n (t :: ms) =
        (xMask n t ++ mczBlock n ++ xMask n t) ++ create_oracle n ms := by
      simp [create_oracle]
    rw [hsplit, applyCircuit_append]
    have hblock : applyCircuit (xMask n t ++ mczBlock n ++ xMask n t) ψ =
        fun c => (if firstBits n c = t then -1 else 1) * ψ c := by
      funext c
      exact oracle_block_apply n t hn (hlt t (List.mem_cons_self t ms)) ψ c
    rw [hblock,
      ih (List.Nodup.of_cons hnd) (fun s hs => hlt s (List.mem_cons_of_mem t hs)) _]
    simp only [List.mem_cons]
    by_cases h1 : firstBits n b = t
    · have h2 : firstBits n b ∉ ms := by
        rw [h1]
        exact (List.nodup_cons.mp hnd).1
      rw [if_neg h2, if_pos h1, if_pos (Or.inl h1)]
      ring
    · by_cases h2 : firstBits n b ∈ ms
      · rw [if_pos h2, if_neg h1, if_pos (Or.inr h2)]
        ring
      · rw [if_neg h2, if_neg h1, if_neg (by tauto)]
        ring

/-! ## Diffuser correctness (claim C6, diffuser half) -/

theorem applyGate_h_comm (i j : ℕ) (hij : i ≠ j) (ψ : QState) :
    applyGate (.h i) (applyGate (.h j) ψ) = applyGate (.h j) (applyGate (.h i) ψ) := by
  funext b
  simp only [applyGate, Function.update_noteq hij, Function.update_noteq (Ne.symm hij)]
  simp only [Function.update_comm hij]
  ring

theorem applyCircuit_h_comm (l : List ℕ) (i : ℕ) (hi : i ∉ l) (ψ : QState) :
    applyGate (.h i) (applyCircuit (l.map Gate.h) ψ) =
      applyCircuit (l.map Gate.h) (applyGate (.h i) ψ) := by
  induction l generalizing ψ with
  | nil => rfl
  | cons j l ih =>
    have hj : i ≠ j := fun h => hi (h ▸ List.mem_cons_self j l)
    have hl : i ∉ l := fun h => hi (List.mem_cons_of_mem j h)
    simp only [List.map_cons, applyCircuit_cons]
    rw [ih hl, applyGate_h_comm i j hj]

/-- Applying `H` to every qubit below `n` twice is the identity. -/
theorem applyHs_applyHs (n : ℕ) (ψ : QState) :
    applyCircuit ((List.range n).map Gate.h)
      (applyCircuit ((List.range n).map Gate.h) ψ) = ψ := by
  induction n with
  | zero => rfl
  | succ n ih =>
    rw [List.range_succ, List.map_append]
    simp only [List.map_cons, List.map_nil]
    rw [applyCircuit_append, applyCircuit_append]
    simp only [applyCircuit_cons, applyCircuit_nil]
    rw [← applyCircuit_h_comm (List.range n) n (by simp)
        (applyCircuit ((List.range n).map Gate.h) ψ),
      ih, applyGate_h_h]

theorem applyGate_sub_mul (g : Gate) (κ : ℂ) (φ χ : QState) :
    applyGate g (fun b => φ b - κ * χ b) =
      fun b => applyGate g φ b - κ * applyGate g χ b := by
  cases g <;> funext b <;> simp only [applyGate] <;> (try split_ifs) <;> ring

theorem applyCircuit_sub_mul (c : List Gate) (κ : ℂ) (φ χ : QState) :
    applyCircuit c (fun b => φ b - κ * χ b) =
      fun b => applyCircuit c φ b - κ * applyCircuit c χ b := by
  induction c generalizing φ χ with
  | nil => rfl
  | cons g c ih =>
    simp only [applyCircuit_cons]
    rw [applyGate_sub_mul g κ φ χ, ih]

/-- The basis assignment whose first `n` bits come from the number `m` and
whose remaining bits come from `b`. -/
def ov (n m : ℕ) (b : ℕ → Bool) : ℕ → Bool :=
  fun i => if i < n then m.testBit i else b i

/-- The basis assignment `b` with its first `n` bits cleared. -/
def zf (n : ℕ) (b : ℕ → Bool) : ℕ → Bool :=
  fun i => if i < n then false else b i

/-- Splitting a sum over `range (2 ^ (n + 1))` into low and high halves. -/
theorem sum_range_two_pow_succ (f : ℕ → ℂ) (n : ℕ) :
    ∑ m in Finset.range (2 ^ (n + 1)), f m =
      (∑ m in Finset.range (2 ^ n), f m) +
        ∑ m in Finset.range (2 ^ n), f (2 ^ n + m) := by
  rw [show (2 : ℕ) ^ (n + 1) = 2 ^ n + 2 ^ n by ring, Finset.range_eq_Ico,
    ← Finset.sum_Ico_consecutive _ (Nat.zero_le (2 ^ n)) (Nat.le_add_right _ _),
    ← Finset.range_eq_Ico, Finset.sum_Ico_eq_sum_range, Nat.add_sub_cancel]

/-- Value of `H^(⊗ n) ψ` at an assignment whose first `n` bits are all zero:
the normalised sum of `ψ` over all settings of those bits. -/
theorem applyHs_at_zero (n : ℕ) (ψ : QState) (b : ℕ → Bool)
    (hb : ∀ i < n, b i = false) :
    applyCircuit ((List.range n).map Gate.h) ψ b =
      invSqrt2 ^ n * ∑ m in Finset.range (2 ^ n), ψ (ov n m b) := by
  induction n generalizing b with
  | zero =>
    simp only [List.range_zero, List.map_nil, applyCircuit_nil, pow_zero, one_mul,
      Finset.range_one, Finset.sum_singleton]
    rw [show ov 0 0 b = b from funext fun i => by simp [ov]]
  | succ n ih =>
    rw [List.range_succ, List.map_append]
    simp only [List.map_cons, List.map_nil]
    rw [applyCircuit_append, applyCircuit_cons, applyCircuit_nil]
    simp only [applyGate]
    have hbn : b n = false := hb n (by omega)
    rw [show Function.update b n false = b by rw [← hbn]; exact Function.update_eq_self n b,
      hbn]
    rw [ih b (fun i hi => hb i (by omega)),
      ih (Function.update b n true)
        (fun i hi => by
          rw [Function.update_noteq (by omega : i ≠ n)]
          exact hb i (by omega))]
    have hsplit : ∑ m in Finset.range (2 ^ (n + 1)), ψ (ov (n + 1) m b) =
        (∑ m in Finset.range (2 ^ n), ψ (ov (n + 1) m b)) +
          ∑ m in Finset.range (2 ^ n), ψ (ov (n + 1) (2 ^ n + m) b) :=
      sum_range_two_pow_succ (fun m => ψ (ov (n + 1) m b)) n
    have hlow : ∀ m ∈ Finset.range (2 ^ n), ψ (ov (n + 1) m b) = ψ (ov n m b) := by
      intro m hm
      have hmlt : m < 2 ^ n := Finset.mem_range.mp hm
      congr 1
      funext i
      simp only [ov]
      by_cases hi : i = n
      · subst hi
        rw [if_pos (by omega), if_neg (by omega), Nat.testBit_lt_two_pow hmlt, hbn]
      · by_cases hilt : i < n
        · rw [if_pos (by omega), if_pos hilt]
        · rw [if_neg (by omega), if_neg hilt]
    have hhigh : ∀ m ∈ Finset.range (2 ^ n),
        ψ (ov (n + 1) (2 ^ n + m) b) = ψ (ov n m (Function.update b n true)) := by
      intro m hm
      have hmlt : m < 2 ^ n := Finset.mem_range.mp hm
      congr 1
      funext i
      simp only [ov]
      by_cases hi : i = n
      · subst hi
        rw [if_pos (by omega), if_neg (by omega), Nat.testBit_two_pow_add_eq,
          Nat.testBit_lt_two_pow hmlt, Function.update_same]
        rfl
      · by_cases hilt : i < n
        · rw [if_pos (by omega), if_pos hilt, Nat.testBit_two_pow_add_gt hilt]
        · rw [if_neg (by omega), if_neg hilt, Function.update_noteq hi]
    rw [hsplit, Finset.sum_congr rfl hlow, Finset.sum_congr rfl hhigh]
    norm_num
    ring

/-- `H^(⊗ n)` of a state supported on assignments whose first `n` bits are
zero spreads it uniformly over those bits. -/
theorem applyHs_delta (n : ℕ) (φ : QState) :
    applyCircuit ((List.range n).map Gate.h)
      (fun b => if ∀ i < n, b i = false then φ b else 0) =
      fun b => invSqrt2 ^ n * φ (zf n b) := by
  induction n generalizing φ with
  | zero =>
    funext b
    simp only [List.range_zero, List.map_nil, applyCircuit_nil, pow_zero, one_mul]
    rw [if_pos (fun i hi => absurd hi (Nat.not_lt_zero i)),
      show zf 0 b = b from funext fun i => by simp [zf]]
  | succ n ih =>
    have hχ : (fun b => if ∀ i < n + 1, b i = false then φ b else 0) =
        (fun b => if ∀ i < n, b i = false
          then (fun c => if c n = false then φ c else 0) b else 0) := by
      funext b
      by_cases h1 : ∀ i < n, b i = false
      · by_cases h2 : b n = false
        · have hall : ∀ i < n + 1, b i = false := by
            intro i hi
            rcases Nat.lt_succ_iff_lt_or_eq.mp hi with h | h
            · exact h1 i h
            · subst h; exact h2
          rw [if_pos hall, if_pos h1]
          simp only []
          rw [if_pos h2]
        · have hnall : ¬ ∀ i < n + 1, b i = false := fun hall => h2 (hall n (by omega))
          rw [if_neg hnall, if_pos h1]
          simp only []
          rw [if_neg h2]
      · have hnall : ¬ ∀ i < n + 1, b i = false :=
          fun hall => h1 (fun i hi => hall i (by omega))
        rw [if_neg hnall, if_neg h1]
    rw [hχ]
    rw [List.range_succ, List.map_append]
    simp only [List.map_cons, List.map_nil]
    rw [applyCircuit_append, applyCircuit_cons, applyCircuit_nil,
      ih (fun c => if c n = false then φ c else 0)]
    funext b
    simp only [applyGate]
    have h1 : zf n (Function.update b n false) n = false := by
      simp [zf, Function.update_same]
    have h2 : zf n (Function.update b n true) n = true := by
      simp [zf, Function.update_same]
    simp only [h1, h2]
    norm_num
    rw [show zf n (Function.update b n false) = zf (n + 1) b by
      funext i
      simp only [zf, Function.update_apply]
      by_cases hi : i = n
      · subst hi; simp
      · by_cases hilt : i < n
        · simp [hi, hilt, Nat.lt_succ_of_lt hilt]
        · have h3 : ¬ i < n + 1 := by omega
          simp [hi, hilt, h3]]
    ring

/-- The `X`-conjugated multi-controlled `Z` inside the diffuser flips the
phase exactly of the all-zeros assignment of the first `n` qubits. -/
theorem xAll_mcz_xAll_apply (n : ℕ) (hn : 1 ≤ n) (ψ : QState) (b : ℕ → Bool) :
    applyCircuit (((List.range n).map Gate.x) ++ mczBlock n ++
        ((List.range n).map Gate.x)) ψ b =
      (if ∀ i < n, b i = false then -1 else 1) * ψ b := by
  rw [applyCircuit_append, applyCircuit_append, applyCircuit_xAll,
    mczBlock_apply n hn, applyCircuit_xAll, flipAll_flipAll]
  have hiff : (∀ i < n, flipAll n b i = true) ↔ ∀ i < n, b i = false := by
    constructor
    · intro h i hi
      have := h i hi
      simp only [flipAll, if_pos hi] at this
      simpa using this
    · intro h i hi
      simp [flipAll, hi, h i hi]
  by_cases hall : ∀ i < n, flipAll n b i = true
  · rw [if_pos hall, if_pos (hiff.mp hall)]
  · rw [if_neg hall, if_neg (fun h => hall (hiff.mpr h))]

/-- C6 (diffuser half): `create_diffuser` acts as `-(2|u⟩⟨u| - I)`, the
reflection about the uniform superposition `|u⟩` up to the global phase
`-1`. -/
theorem create_diffuser_apply (n : ℕ) (hn : 1 ≤ n) (ψ : QState) (b : ℕ → Bool) :
    applyCircuit (create_diffuser n) ψ b =
      -((2 / 2 ^ n) * (∑ m in Finset.range (2 ^ n), ψ (ov n m b)) - ψ b) := by
  have hgroup : create_diffuser n =
      ((List.range n).map Gate.h) ++
        ((((List.range n).map Gate.x) ++ mczBlock n ++ ((List.range n).map Gate.x)) ++
          ((List.range n).map Gate.h)) := by
    simp [create_diffuser, List.append_assoc]
  rw [hgroup, applyCircuit_append, applyCircuit_append]
  have hinner : applyCircuit (((List.range n).map Gate.x) ++ mczBlock n ++
        ((List.range n).map Gate.x)) (applyCircuit ((List.range n).map Gate.h) ψ) =
      fun c => applyCircuit ((List.range n).map Gate.h) ψ c -
        2 * (if ∀ i < n, c i = false
          then applyCircuit ((List.range n).map Gate.h) ψ c else 0) := by
    funext c
    rw [xAll_mcz_xAll_apply n hn _ c]
    by_cases h : ∀ i < n, c i = false
    · rw [if_pos h, if_pos h]
      ring
    · rw [if_neg h, if_neg h]
      ring
  rw [hinner]
  have step1 : applyCircuit ((List.range n).map Gate.h)
      (fun c => applyCircuit ((List.range n).map Gate.h) ψ c -
        2 * (if ∀ i < n, c i = false
          then applyCircuit ((List.range n).map Gate.h) ψ c else 0)) b =
      applyCircuit ((List.range n).map Gate.h)
        (applyCircuit ((List.range n).map Gate.h) ψ) b -
        2 * applyCircuit ((List.range n).map Gate.h)
          (fun c => if ∀ i < n, c i = false
            then applyCircuit ((List.range n).map Gate.h) ψ c else 0) b :=
    congrFun (applyCircuit_sub_mul ((List.range n).map Gate.h) 2
      (applyCircuit ((List.range n).map Gate.h) ψ)
      (fun c => if ∀ i < n, c i = false
        then applyCircuit ((List.range n).map Gate.h) ψ c else 0)) b
  rw [step1]
  have step2 : applyCircuit ((List.range n).map Gate.h)
      (applyCircuit ((List.range n).map Gate.h) ψ) b = ψ b :=
    congrFun (applyHs_applyHs n ψ) b
  have step3 : applyCircuit ((List.range n).map Gate.h)
      (fun c => if ∀ i < n, c i = false
        then applyCircuit ((List.range n).map Gate.h) ψ c else 0) b =
      invSqrt2 ^ n * applyCircuit ((List.range n).map Gate.h) ψ (zf n b) :=
    congrFun (applyHs_delta n (applyCircuit ((List.range n).map Gate.h) ψ)) b
  rw [step2, step3]
  have step4 : applyCircuit ((List.range n).map Gate.h) ψ (zf n b) =
      invSqrt2 ^ n * ∑ m in Finset.range (2 ^ n), ψ (ov n m (zf n b)) :=
    applyHs_at_zero n ψ (zf n b) (fun i hi => by simp [zf, hi])
  have hov : ∀ m ∈ Finset.range (2 ^ n), ψ (ov n m (zf n b)) = ψ (ov n m b) := by
    intro m _
    congr 1
    funext i
    simp only [ov, zf]
    by_cases hi : i < n <;> simp [hi]
  rw [step4, Finset.sum_congr rfl hov]
  have hpow : invSqrt2 ^ n * invSqrt2 ^ n = ((2 : ℂ) ^ n)⁻¹ := by
    rw [← mul_pow, invSqrt2_mul_self, inv_pow]
  linear_combination (-2 * ∑ m in Finset.range (2 ^ n), ψ (ov n m b)) * hpow

/-- C6: Grover's oracle and diffuser are the textbook circuits.  For every
`n_qubits ≥ 1` and every list of distinct marked basis states below `2 ^ n`,
`create_oracle` implements the phase oracle `|x⟩ → (-1)^f(x) |x⟩` with
`f(x) = 1` exactly on the marked states (`x` read little-endian off the first
`n` qubits), and `create_diffuser` implements, up to the global phase `-1`
made explicit on the right-hand side, the reflection `2|u⟩⟨u| - I` about the
uniform superposition: its value is `-( (2 / 2^n) Σ_c ψ(c) - ψ(b) )`, the
reflection applied to `ψ`, with the inner product written as the sum over
all settings of the first `n` qubits. -/
theorem grover_oracle_and_diffuser (n : ℕ) (hn : 1 ≤ n) (marked : List ℕ)
    (hnd : marked.Nodup) (hlt : ∀ t ∈ marked, t < 2 ^ n) (ψ : QState)
    (b : ℕ → Bool) :
    applyCircuit (create_oracle n marked) ψ b =
        (if firstBits n b ∈ marked then -1 else 1) * ψ b ∧
      applyCircuit (create_diffuser n) ψ b =
        -((2 / 2 ^ n) * (∑ m in Finset.range (2 ^ n), ψ (ov n m b)) - ψ b) :=
  ⟨create_oracle_apply n hn marked hnd hlt ψ b, create_diffuser_apply n hn ψ b⟩

/-- The constant-amplitude state, used to instantiate the Grover theorem. -/
def oneState : QState := fun _ => 1

/-- The all-ones basis assignment. -/
def allOnes : ℕ → Bool := fun _ => true

/-- C6, witness: on two qubits with marked state `3 = 11₂`, the oracle flips
the phase of the constant state at the all-ones assignment, and the diffuser
sends it to `-1` as the reflection predicts. -/
theorem grover_oracle_and_diffuser_witness :
    applyCircuit (create_oracle 2 [3]) oneState allOnes = -1 ∧
      applyCircuit (create_diffuser 2) oneState allOnes = -1 := by
  obtain ⟨h1, h2⟩ := grover_oracle_and_diffuser 2 (by norm_num) [3]
    (by simp)
    (by
      intro t ht
      simp only [List.mem_singleton] at ht
      subst ht
      norm_num)
    oneState allOnes
  constructor
  · rw [h1]
    have hfb : firstBits 2 allOnes = 3 := by norm_num [firstBits, allOnes]
    rw [hfb]
    norm_num [oneState]
  · rw [h2]
    have hsum : ∑ m in Finset.range (2 ^ 2), oneState (ov 2 m allOnes) = 4 := by
      simp [oneState]
    rw [hsum]
    norm_num [oneState]

end QuantumAlgorithms
